import Mathlib

/-!
# Verification of the Base64 codec (`src/utils/src/base64.rs`)

Shallow embedding of the Base64 encoder/decoder from `src/utils/src/base64.rs`.

Modelling conventions:
* A Rust `&[u8]` / `Vec<u8>` is a `List Nat`; theorems about byte values carry the
  hypothesis that every element is `< 256`.
* A Rust `&str` / `String` is its byte sequence, again a `List Nat`; characters
  produced by the encoder are kept as `Char` (all are ASCII) and turned into their
  byte values with `Char.toNat` when fed to the decoder.
* The distinct error strings of `decode` become constructors of `DecodeError`:
  `invalidLength` for the message about base64 length, `notAscii` for the
  non-ASCII message, `invalidAlphabet` for the generic invalid-encoding message.
  `outOfBounds` models a Rust index-out-of-range panic: it is not a value the
  Rust function can return; it marks the crash paths of `bytes[i]`,
  `bytes[i+1..i+3]` and `BASE64_UNMAP[b as usize]`.
* `u8` arithmetic (`<<`, `>>`, `&`, `|`) is `Nat` bitwise arithmetic, with `% 256`
  inserted exactly where a `u8` shift can overflow (`n << 2`, `n << 4`, `n << 6`
  on table values).
-/

namespace Base64

/-- The forward alphabet table `BASE64_MAP: [char; 64]` from the source. -/
def BASE64_MAP : List Char :=
  ['A', 'B', 'C', 'D', 'E', 'F', 'G', 'H', 'I', 'J', 'K', 'L', 'M', 'N', 'O', 'P', 'Q', 'R', 'S',
   'T', 'U', 'V', 'W', 'X', 'Y', 'Z', 'a', 'b', 'c', 'd', 'e', 'f', 'g', 'h', 'i', 'j', 'k', 'l',
   'm', 'n', 'o', 'p', 'q', 'r', 's', 't', 'u', 'v', 'w', 'x', 'y', 'z', '0', '1', '2', '3', '4',
   '5', '6', '7', '8', '9', '+', '/']

/-- `BASE64_MAP[n as usize]`. For the `u8`-derived indices the source produces the
index is always `< 64`, so the default is never reached there. -/
def mapChar (n : Nat) : Char := BASE64_MAP.getD n 'A'

/-- The encoder `pub fn encode(bytes: &[u8]) -> String`.

The Rust `while` loop consumes three input bytes per iteration and pushes four
characters; the two `if i == bytes.len()` early exits (after one, resp. two,
bytes of a group) push the computed partial character and `"=="`, resp. `"="`,
and `break`. Structurally that is exactly the following recursion. -/
def encode : List Nat → List Char
  | [] => []
  | [b0] =>
      [mapChar (b0 >>> 2),
       mapChar ((b0 &&& 3) <<< 4),
       '=', '=']
  | [b0, b1] =>
      [mapChar (b0 >>> 2),
       mapChar (((b0 &&& 3) <<< 4) ||| (b1 >>> 4)),
       mapChar ((b1 &&& 15) <<< 2),
       '=']
  | b0 :: b1 :: b2 :: rest =>
      mapChar (b0 >>> 2) ::
      mapChar (((b0 &&& 3) <<< 4) ||| (b1 >>> 4)) ::
      mapChar (((b1 &&& 15) <<< 2) ||| (b2 >>> 6)) ::
      mapChar (b2 &&& 63) :: encode rest

/-- The inverse table `BASE64_UNMAP: [u8; 128]` from the source, verbatim. -/
def BASE64_UNMAP : List Nat :=
  [255, 255, 255, 255, 255, 255, 255, 255, 255, 255, 255, 255, 255, 255, 255, 255, 255, 255, 255,
   255, 255, 255, 255, 255, 255, 255, 255, 255, 255, 255, 255, 255, 255, 255, 255, 255, 255, 255,
   255, 255, 255, 255, 255, 62, 255, 255, 255, 63, 52, 53, 54, 55, 56, 57, 58, 59, 60, 61, 255,
   255, 255, 0, 255, 255, 255, 0, 1, 2, 3, 4, 5, 6, 7, 8, 9, 10, 11, 12, 13, 14, 15, 16, 17, 18,
   19, 20, 21, 22, 23, 24, 25, 255, 255, 255, 255, 255, 255, 26, 27, 28, 29, 30, 31, 32, 33, 34,
   35, 36, 37, 38, 39, 40, 41, 42, 43, 44, 45, 46, 47, 48, 49, 50, 51, 255, 255, 255, 255, 255]

/-- The decoder's error taxonomy (the three distinct error strings of the source),
plus `outOfBounds` marking a would-be index panic (never actually produced,
see the index-safety theorem). -/
inductive DecodeError where
  | invalidLength
  | notAscii
  | invalidAlphabet
  | outOfBounds
deriving DecidableEq, Repr

instance {ε α : Type} [DecidableEq ε] [DecidableEq α] : DecidableEq (Except ε α) := fun x y =>
  match x, y with
  | .ok a, .ok b => decidable_of_iff (a = b) (by simp)
  | .error a, .error b => decidable_of_iff (a = b) (by simp)
  | .ok _, .error _ => isFalse fun h => Except.noConfusion h
  | .error _, .ok _ => isFalse fun h => Except.noConfusion h

/-- The decoder's `while i < bytes.len()` loop.

Per iteration the source reads `bytes[i] .. bytes[i+3]` (panic if out of range:
the final catch-all arm), looks all four up in `BASE64_UNMAP` (panic if a byte
is `≥ 128`: the bounds guard), rejects the group if any of the four values is
`255`, pushes byte0, stops after byte0 if `bytes[i+2] == '='` (61), otherwise
pushes byte1, stops if `bytes[i+3] == '='`, otherwise pushes byte2 and
continues with the next group. Shift amounts and masks are the source's;
`% 256` models the `u8` truncation of `n1 << 4` and `n2 << 6` (and harmlessly
of `n0 << 2`). -/
def decodeLoop : List Nat → Except DecodeError (List Nat)
  | [] => .ok []
  | c0 :: c1 :: c2 :: c3 :: rest =>
      if c0 < 128 ∧ c1 < 128 ∧ c2 < 128 ∧ c3 < 128 then
        let n0 := BASE64_UNMAP.getD c0 255
        let n1 := BASE64_UNMAP.getD c1 255
        let n2 := BASE64_UNMAP.getD c2 255
        let n3 := BASE64_UNMAP.getD c3 255
        if n0 = 255 ∨ n1 = 255 ∨ n2 = 255 ∨ n3 = 255 then
          .error .invalidAlphabet
        else
          let byte0 := ((n0 <<< 2) % 256) ||| (n1 >>> 4)
          if c2 = 61 then
            .ok [byte0]
          else
            let byte1 := ((n1 <<< 4) % 256) ||| (n2 >>> 2)
            if c3 = 61 then
              .ok [byte0, byte1]
            else
              let byte2 := ((n2 <<< 6) % 256) ||| n3
              match decodeLoop rest with
              | .ok tail => .ok (byte0 :: byte1 :: byte2 :: tail)
              | .error e => .error e
      else
        .error .outOfBounds
  | _ => .error .outOfBounds

/-- The decoder `pub fn decode(s: &str) -> Result<Vec<u8>>`: first the
`s.len() & 0x03 != 0` check, then the `!s.is_ascii()` check, then the loop. -/
def decode (s : List Nat) : Except DecodeError (List Nat) :=
  if s.length % 4 ≠ 0 then
    .error .invalidLength
  else if !(s.all fun b => decide (b < 128)) then
    .error .notAscii
  else
    decodeLoop s

/-- A byte is a valid non-padding Base64 symbol: in ASCII range and not mapped
to the sentinel by `BASE64_UNMAP`. (A statement-side predicate for the
truncation and invalid-alphabet theorems.) -/
def validSym (c : Nat) : Bool :=
  decide (c < 128) && decide (BASE64_UNMAP.getD c 255 ≠ 255)

/-- The byte string is a concatenation of 4-byte groups, each made of valid
non-padding symbols with no `'='` (61) in positions 2 and 3 — i.e. groups the
decode loop walks through completely, emitting three bytes each. -/
def fullGroups : List Nat → Bool
  | [] => true
  | c0 :: c1 :: c2 :: c3 :: rest =>
      validSym c0 && validSym c1 && validSym c2 && validSym c3 &&
      decide (c2 ≠ 61) && decide (c3 ≠ 61) && fullGroups rest
  | _ => false

set_option maxRecDepth 4096

/-! ## Arithmetic bridges

The source works on `u8` with shifts, masks and bitwise or; the following
bounded facts translate those to `/`, `%`, `*`, `+` so that `omega` can finish
the algebra. All are settled by exhaustive evaluation. -/

lemma shiftr2_eq : ∀ b < 256, b >>> 2 = b / 4 := by decide

lemma and3_shl4_eq : ∀ b < 256, (b &&& 3) <<< 4 = b % 4 * 16 := by decide

lemma shiftr4_eq : ∀ b < 256, b >>> 4 = b / 16 := by decide

lemma and15_shl2_eq : ∀ b < 256, (b &&& 15) <<< 2 = b % 16 * 4 := by decide

lemma shiftr6_eq : ∀ b < 256, b >>> 6 = b / 64 := by decide

lemma and63_eq : ∀ b < 256, b &&& 63 = b % 64 := by decide

lemma lor16_eq : ∀ x < 64, x % 16 = 0 → ∀ y < 16, x ||| y = x + y := by decide

lemma lor4_eq : ∀ x < 64, x % 4 = 0 → ∀ y < 4, x ||| y = x + y := by decide

lemma byte0_eq : ∀ n0 < 64, ∀ n1 < 64,
    ((n0 <<< 2) % 256) ||| (n1 >>> 4) = n0 * 4 + n1 / 16 := by decide

lemma byte1_eq : ∀ n1 < 64, ∀ n2 < 64,
    ((n1 <<< 4) % 256) ||| (n2 >>> 2) = n1 % 16 * 16 + n2 / 4 := by decide

lemma byte2_eq : ∀ n2 < 64, ∀ n3 < 64,
    ((n2 <<< 6) % 256) ||| n3 = n2 % 4 * 64 + n3 := by decide

/-! ## Table facts -/

/-- The inverse table undoes the forward table on every 6-bit value. -/
lemma unmap_mapChar : ∀ k < 64, BASE64_UNMAP.getD (mapChar k).toNat 255 = k := by decide

lemma mapChar_toNat_lt_of_lt : ∀ k < 64, (mapChar k).toNat < 128 := by decide

lemma mapChar_toNat_ne61 : ∀ k < 64, (mapChar k).toNat ≠ 61 := by decide

lemma mapChar_ne_eq_of_lt : ∀ k < 64, mapChar k ≠ '=' := by decide

lemma BASE64_MAP_length : BASE64_MAP.length = 64 := by decide

/-- No index produces the padding character (out of range falls to the default). -/
lemma mapChar_ne_eq (n : Nat) : mapChar n ≠ '=' := by
  by_cases h : n < 64
  · exact mapChar_ne_eq_of_lt n h
  · have hlen : BASE64_MAP.length ≤ n := by rw [BASE64_MAP_length]; omega
    rw [mapChar, List.getD_eq_default _ _ hlen]
    decide

/-- Every character the encoder can produce is plain ASCII. -/
lemma mapChar_toNat_lt (n : Nat) : (mapChar n).toNat < 128 := by
  by_cases h : n < 64
  · exact mapChar_toNat_lt_of_lt n h
  · have hlen : BASE64_MAP.length ≤ n := by rw [BASE64_MAP_length]; omega
    rw [mapChar, List.getD_eq_default _ _ hlen]
    decide

lemma validSym_iff (c : Nat) :
    validSym c = true ↔ c < 128 ∧ BASE64_UNMAP.getD c 255 ≠ 255 := by
  simp [validSym]

/-! ## Group-level behaviour of the decode loop -/

/-- A group whose four symbols are valid and whose positions 2 and 3 are not
`'='` emits its three bytes and the loop continues with the rest. -/
lemma decodeLoop_group_full (c0 c1 c2 c3 : Nat) (rest : List Nat)
    (h0 : c0 < 128) (h1 : c1 < 128) (h2 : c2 < 128) (h3 : c3 < 128)
    (hn0 : BASE64_UNMAP.getD c0 255 ≠ 255) (hn1 : BASE64_UNMAP.getD c1 255 ≠ 255)
    (hn2 : BASE64_UNMAP.getD c2 255 ≠ 255) (hn3 : BASE64_UNMAP.getD c3 255 ≠ 255)
    (he2 : c2 ≠ 61) (he3 : c3 ≠ 61) :
    decodeLoop (c0 :: c1 :: c2 :: c3 :: rest) =
      (decodeLoop rest).map fun tail =>
        (((BASE64_UNMAP.getD c0 255 <<< 2) % 256) ||| (BASE64_UNMAP.getD c1 255 >>> 4)) ::
        (((BASE64_UNMAP.getD c1 255 <<< 4) % 256) ||| (BASE64_UNMAP.getD c2 255 >>> 2)) ::
        (((BASE64_UNMAP.getD c2 255 <<< 6) % 256) ||| BASE64_UNMAP.getD c3 255) :: tail := by
  simp only [decodeLoop]
  rw [if_pos ⟨h0, h1, h2, h3⟩, if_neg (by push_neg; exact ⟨hn0, hn1, hn2, hn3⟩),
    if_neg he2, if_neg he3]
  cases h : decodeLoop rest <;> simp [Except.map]

/-- A group with `'='` in position 2 (and valid symbols elsewhere) emits one
byte and stops the whole loop. -/
lemma decodeLoop_group_pad2 (c0 c1 c3 : Nat) (rest : List Nat)
    (h0 : c0 < 128) (h1 : c1 < 128) (h3 : c3 < 128)
    (hn0 : BASE64_UNMAP.getD c0 255 ≠ 255) (hn1 : BASE64_UNMAP.getD c1 255 ≠ 255)
    (hn3 : BASE64_UNMAP.getD c3 255 ≠ 255) :
    decodeLoop (c0 :: c1 :: 61 :: c3 :: rest) =
      .ok [((BASE64_UNMAP.getD c0 255 <<< 2) % 256) ||| (BASE64_UNMAP.getD c1 255 >>> 4)] := by
  simp only [decodeLoop]
  rw [if_pos ⟨h0, h1, by omega, h3⟩,
    if_neg (by push_neg; exact ⟨hn0, hn1, by decide, hn3⟩)]
  simp

/-- A group with `'='` in position 3 but not 2 emits two bytes and stops the
whole loop. -/
lemma decodeLoop_group_pad3 (c0 c1 c2 : Nat) (rest : List Nat)
    (h0 : c0 < 128) (h1 : c1 < 128) (h2 : c2 < 128)
    (hn0 : BASE64_UNMAP.getD c0 255 ≠ 255) (hn1 : BASE64_UNMAP.getD c1 255 ≠ 255)
    (hn2 : BASE64_UNMAP.getD c2 255 ≠ 255) (he2 : c2 ≠ 61) :
    decodeLoop (c0 :: c1 :: c2 :: 61 :: rest) =
      .ok [((BASE64_UNMAP.getD c0 255 <<< 2) % 256) ||| (BASE64_UNMAP.getD c1 255 >>> 4),
           ((BASE64_UNMAP.getD c1 255 <<< 4) % 256) ||| (BASE64_UNMAP.getD c2 255 >>> 2)] := by
  simp only [decodeLoop]
  rw [if_pos ⟨h0, h1, h2, by omega⟩,
    if_neg (by push_neg; exact ⟨hn0, hn1, hn2, by decide⟩), if_neg he2]
  simp

/-- A group containing a sentinel-mapped byte is rejected as a whole. -/
lemma decodeLoop_group_invalid (c0 c1 c2 c3 : Nat) (rest : List Nat)
    (h0 : c0 < 128) (h1 : c1 < 128) (h2 : c2 < 128) (h3 : c3 < 128)
    (hor : BASE64_UNMAP.getD c0 255 = 255 ∨ BASE64_UNMAP.getD c1 255 = 255 ∨
      BASE64_UNMAP.getD c2 255 = 255 ∨ BASE64_UNMAP.getD c3 255 = 255) :
    decodeLoop (c0 :: c1 :: c2 :: c3 :: rest) = .error .invalidAlphabet := by
  simp only [decodeLoop]
  rw [if_pos ⟨h0, h1, h2, h3⟩, if_pos hor]

/-! ## Behaviour of the validation layer of `decode` -/

lemma decode_invalidLength (s : List Nat) (h : s.length % 4 ≠ 0) :
    decode s = .error .invalidLength := by
  rw [decode, if_pos h]

lemma decode_notAscii (s : List Nat) (hlen : s.length % 4 = 0)
    (h : ∃ b ∈ s, 128 ≤ b) : decode s = .error .notAscii := by
  rw [decode, if_neg (by omega)]
  have hall : (s.all fun b => decide (b < 128)) = false := by
    obtain ⟨b, hb, hge⟩ := h
    rw [List.all_eq_false]
    exact ⟨b, hb, by simp; omega⟩
  rw [hall]
  rfl

lemma decode_eq_decodeLoop (s : List Nat) (hlen : s.length % 4 = 0)
    (hascii : ∀ b ∈ s, b < 128) : decode s = decodeLoop s := by
  have hall : (s.all fun b => decide (b < 128)) = true := by
    rw [List.all_eq_true]
    exact fun b hb => decide_eq_true (hascii b hb)
  rw [decode, if_neg (by omega), hall]
  rfl

/-! ## Encoder facts -/

/-- Output length of the encoder: four characters for every started group of
three input bytes. -/
lemma encode_length (bs : List Nat) : (encode bs).length = 4 * ((bs.length + 2) / 3) := by
  induction bs using encode.induct with
  | case1 => simp [encode]
  | case2 b0 => simp [encode]
  | case3 b0 b1 => simp [encode]
  | case4 b0 b1 b2 rest ih => simp [encode, ih]; omega

lemma ne_mapChar (n : Nat) : '=' ≠ mapChar n := fun h => mapChar_ne_eq n h.symm

/-- Every character of an encoding is plain ASCII. -/
lemma encode_mem_toNat_lt (bs : List Nat) : ∀ c ∈ encode bs, c.toNat < 128 := by
  induction bs using encode.induct with
  | case1 => simp [encode]
  | case2 b0 =>
      intro c hc
      simp only [encode, List.mem_cons, List.not_mem_nil, or_false] at hc
      rcases hc with rfl | rfl | rfl | rfl
      · exact mapChar_toNat_lt _
      · exact mapChar_toNat_lt _
      · decide
      · decide
  | case3 b0 b1 =>
      intro c hc
      simp only [encode, List.mem_cons, List.not_mem_nil, or_false] at hc
      rcases hc with rfl | rfl | rfl | rfl
      · exact mapChar_toNat_lt _
      · exact mapChar_toNat_lt _
      · exact mapChar_toNat_lt _
      · decide
  | case4 b0 b1 b2 rest ih =>
      intro c hc
      simp only [encode, List.mem_cons] at hc
      rcases hc with rfl | rfl | rfl | rfl | hmem
      · exact mapChar_toNat_lt _
      · exact mapChar_toNat_lt _
      · exact mapChar_toNat_lt _
      · exact mapChar_toNat_lt _
      · exact ih c hmem

/-- Shape of the encoder output by input length mod 3: no padding, a final
`"=="`, or a single final `"="`, with no padding character anywhere else. -/
lemma encode_shape (bs : List Nat) :
    (bs.length % 3 = 0 → '=' ∉ encode bs) ∧
    (bs.length % 3 = 1 → ∃ u, encode bs = u ++ ['=', '='] ∧ '=' ∉ u) ∧
    (bs.length % 3 = 2 → ∃ u, encode bs = u ++ ['='] ∧ '=' ∉ u) := by
  induction bs using encode.induct with
  | case1 =>
      exact ⟨fun _ => by simp [encode], fun h => by simp at h, fun h => by simp at h⟩
  | case2 b0 =>
      refine ⟨fun h => by simp at h, fun _ => ?_, fun h => by simp at h⟩
      refine ⟨[mapChar (b0 >>> 2), mapChar ((b0 &&& 3) <<< 4)], rfl, ?_⟩
      simp [ne_mapChar]
  | case3 b0 b1 =>
      refine ⟨fun h => by simp at h, fun h => by simp at h, fun _ => ?_⟩
      refine ⟨[mapChar (b0 >>> 2), mapChar (((b0 &&& 3) <<< 4) ||| (b1 >>> 4)),
        mapChar ((b1 &&& 15) <<< 2)], rfl, ?_⟩
      simp [ne_mapChar]
  | case4 b0 b1 b2 rest ih =>
      obtain ⟨ih0, ih1, ih2⟩ := ih
      have hlen : (b0 :: b1 :: b2 :: rest).length % 3 = rest.length % 3 := by
        simp [List.length_cons]; omega
      refine ⟨fun h => ?_, fun h => ?_, fun h => ?_⟩
      · rw [hlen] at h
        simp only [encode, List.mem_cons]
        push_neg
        exact ⟨ne_mapChar _, ne_mapChar _, ne_mapChar _, ne_mapChar _, ih0 h⟩
      · rw [hlen] at h
        obtain ⟨u, hu, hnu⟩ := ih1 h
        refine ⟨mapChar (b0 >>> 2) :: mapChar (((b0 &&& 3) <<< 4) ||| (b1 >>> 4)) ::
          mapChar (((b1 &&& 15) <<< 2) ||| (b2 >>> 6)) :: mapChar (b2 &&& 63) :: u, ?_, ?_⟩
        · simp only [encode, hu, List.cons_append]
        · simp only [List.mem_cons]
          push_neg
          exact ⟨ne_mapChar _, ne_mapChar _, ne_mapChar _, ne_mapChar _, hnu⟩
      · rw [hlen] at h
        obtain ⟨u, hu, hnu⟩ := ih2 h
        refine ⟨mapChar (b0 >>> 2) :: mapChar (((b0 &&& 3) <<< 4) ||| (b1 >>> 4)) ::
          mapChar (((b1 &&& 15) <<< 2) ||| (b2 >>> 6)) :: mapChar (b2 &&& 63) :: u, ?_, ?_⟩
        · simp only [encode, hu, List.cons_append]
        · simp only [List.mem_cons]
          push_neg
          exact ⟨ne_mapChar _, ne_mapChar _, ne_mapChar _, ne_mapChar _, hnu⟩

/-! ## Round trip -/

/-- The decode loop inverts the encoder on the byte level. -/
lemma decodeLoop_map_encode : ∀ bs : List Nat, (∀ b ∈ bs, b < 256) →
    decodeLoop ((encode bs).map Char.toNat) = .ok bs := by
  intro bs
  induction bs using encode.induct with
  | case1 => intro _; rfl
  | case2 b0 =>
      intro hb
      have hb0 : b0 < 256 := hb b0 (by simp)
      have hk0 : b0 >>> 2 = b0 / 4 := shiftr2_eq b0 hb0
      have hk1 : (b0 &&& 3) <<< 4 = b0 % 4 * 16 := and3_shl4_eq b0 hb0
      have h0lt : b0 / 4 < 64 := by omega
      have h1lt : b0 % 4 * 16 < 64 := by omega
      have e61 : Char.toNat '=' = 61 := rfl
      simp only [encode, List.map_cons, List.map_nil, hk0, hk1, e61]
      rw [decodeLoop_group_pad2 _ _ _ _ (mapChar_toNat_lt _) (mapChar_toNat_lt _) (by omega)
        (by rw [unmap_mapChar _ h0lt]; omega) (by rw [unmap_mapChar _ h1lt]; omega) (by decide),
        unmap_mapChar _ h0lt, unmap_mapChar _ h1lt, byte0_eq _ h0lt _ h1lt]
      have : b0 / 4 * 4 + b0 % 4 * 16 / 16 = b0 := by omega
      rw [this]
  | case3 b0 b1 =>
      intro hb
      have hb0 : b0 < 256 := hb b0 (by simp)
      have hb1 : b1 < 256 := hb b1 (by simp)
      have hk0 : b0 >>> 2 = b0 / 4 := shiftr2_eq b0 hb0
      have hk1 : ((b0 &&& 3) <<< 4) ||| (b1 >>> 4) = b0 % 4 * 16 + b1 / 16 := by
        rw [and3_shl4_eq b0 hb0, shiftr4_eq b1 hb1]
        exact lor16_eq _ (by omega) (by omega) _ (by omega)
      have hk2 : (b1 &&& 15) <<< 2 = b1 % 16 * 4 := and15_shl2_eq b1 hb1
      have h0lt : b0 / 4 < 64 := by omega
      have h1lt : b0 % 4 * 16 + b1 / 16 < 64 := by omega
      have h2lt : b1 % 16 * 4 < 64 := by omega
      have e61 : Char.toNat '=' = 61 := rfl
      simp only [encode, List.map_cons, List.map_nil, hk0, hk1, hk2, e61]
      rw [decodeLoop_group_pad3 _ _ _ _ (mapChar_toNat_lt _) (mapChar_toNat_lt _)
        (mapChar_toNat_lt _)
        (by rw [unmap_mapChar _ h0lt]; omega) (by rw [unmap_mapChar _ h1lt]; omega)
        (by rw [unmap_mapChar _ h2lt]; omega) (mapChar_toNat_ne61 _ h2lt),
        unmap_mapChar _ h0lt, unmap_mapChar _ h1lt, unmap_mapChar _ h2lt,
        byte0_eq _ h0lt _ h1lt, byte1_eq _ h1lt _ h2lt]
      have hv0 : b0 / 4 * 4 + (b0 % 4 * 16 + b1 / 16) / 16 = b0 := by omega
      have hv1 : (b0 % 4 * 16 + b1 / 16) % 16 * 16 + b1 % 16 * 4 / 4 = b1 := by omega
      rw [hv0, hv1]
  | case4 b0 b1 b2 rest ih =>
      intro hb
      have hb0 : b0 < 256 := hb b0 (by simp)
      have hb1 : b1 < 256 := hb b1 (by simp)
      have hb2 : b2 < 256 := hb b2 (by simp)
      have hrest : ∀ b ∈ rest, b < 256 := fun b hbm => hb b (by simp [hbm])
      have hk0 : b0 >>> 2 = b0 / 4 := shiftr2_eq b0 hb0
      have hk1 : ((b0 &&& 3) <<< 4) ||| (b1 >>> 4) = b0 % 4 * 16 + b1 / 16 := by
        rw [and3_shl4_eq b0 hb0, shiftr4_eq b1 hb1]
        exact lor16_eq _ (by omega) (by omega) _ (by omega)
      have hk2 : ((b1 &&& 15) <<< 2) ||| (b2 >>> 6) = b1 % 16 * 4 + b2 / 64 := by
        rw [and15_shl2_eq b1 hb1, shiftr6_eq b2 hb2]
        exact lor4_eq _ (by omega) (by omega) _ (by omega)
      have hk3 : b2 &&& 63 = b2 % 64 := and63_eq b2 hb2
      have h0lt : b0 / 4 < 64 := by omega
      have h1lt : b0 % 4 * 16 + b1 / 16 < 64 := by omega
      have h2lt : b1 % 16 * 4 + b2 / 64 < 64 := by omega
      have h3lt : b2 % 64 < 64 := by omega
      simp only [encode, List.map_cons, hk0, hk1, hk2, hk3]
      rw [decodeLoop_group_full _ _ _ _ _ (mapChar_toNat_lt _) (mapChar_toNat_lt _)
        (mapChar_toNat_lt _) (mapChar_toNat_lt _)
        (by rw [unmap_mapChar _ h0lt]; omega) (by rw [unmap_mapChar _ h1lt]; omega)
        (by rw [unmap_mapChar _ h2lt]; omega) (by rw [unmap_mapChar _ h3lt]; omega)
        (mapChar_toNat_ne61 _ h2lt) (mapChar_toNat_ne61 _ h3lt),
        ih hrest,
        unmap_mapChar _ h0lt, unmap_mapChar _ h1lt, unmap_mapChar _ h2lt, unmap_mapChar _ h3lt,
        byte0_eq _ h0lt _ h1lt, byte1_eq _ h1lt _ h2lt, byte2_eq _ h2lt _ h3lt]
      have hv0 : b0 / 4 * 4 + (b0 % 4 * 16 + b1 / 16) / 16 = b0 := by omega
      have hv1 : (b0 % 4 * 16 + b1 / 16) % 16 * 16 + (b1 % 16 * 4 + b2 / 64) / 4 = b1 := by
        omega
      have hv2 : (b1 % 16 * 4 + b2 / 64) % 4 * 64 + b2 % 64 = b2 := by omega
      rw [hv0, hv1, hv2]
      rfl

/-! ## Full groups and the decode loop -/

lemma fullGroups_length : ∀ p : List Nat, fullGroups p = true → p.length % 4 = 0 := by
  intro p
  induction p using fullGroups.induct with
  | case1 => intro _; rfl
  | case2 c0 c1 c2 c3 rest ih =>
      intro hp
      simp only [fullGroups, Bool.and_eq_true] at hp
      have := ih hp.2
      simp [List.length_cons]
      omega
  | case3 t h1 h4 =>
      intro hp
      rcases t with _ | ⟨a, _ | ⟨b, _ | ⟨c, _ | ⟨d, r⟩⟩⟩⟩
      · exact absurd rfl h1
      · simp [fullGroups] at hp
      · simp [fullGroups] at hp
      · simp [fullGroups] at hp
      · exact absurd rfl (h4 a b c d r)

lemma fullGroups_ascii : ∀ p : List Nat, fullGroups p = true → ∀ b ∈ p, b < 128 := by
  intro p
  induction p using fullGroups.induct with
  | case1 => intro _ b hb; simp at hb
  | case2 c0 c1 c2 c3 rest ih =>
      intro hp b hb
      simp only [fullGroups, Bool.and_eq_true, validSym_iff] at hp
      obtain ⟨⟨⟨⟨⟨⟨hv0, hv1⟩, hv2⟩, hv3⟩, _⟩, _⟩, hrest⟩ := hp
      simp only [List.mem_cons] at hb
      rcases hb with rfl | rfl | rfl | rfl | hmem
      · exact hv0.1
      · exact hv1.1
      · exact hv2.1
      · exact hv3.1
      · exact ih hrest b hmem
  | case3 t h1 h4 =>
      intro hp
      rcases t with _ | ⟨a, _ | ⟨b, _ | ⟨c, _ | ⟨d, r⟩⟩⟩⟩
      · exact absurd rfl h1
      · simp [fullGroups] at hp
      · simp [fullGroups] at hp
      · simp [fullGroups] at hp
      · exact absurd rfl (h4 a b c d r)

/-- A run of full valid groups decodes to some bytes, and the loop then
continues on whatever follows, prepending those bytes to its result. -/
lemma decodeLoop_append_of_fullGroups : ∀ p : List Nat, fullGroups p = true →
    ∃ pb, decodeLoop p = .ok pb ∧
      ∀ s, decodeLoop (p ++ s) = (decodeLoop s).map fun tail => pb ++ tail := by
  intro p
  induction p using fullGroups.induct with
  | case1 =>
      intro _
      exact ⟨[], rfl, fun s => by cases h : decodeLoop s <;> simp [Except.map, h]⟩
  | case2 c0 c1 c2 c3 rest ih =>
      intro hp
      simp only [fullGroups, Bool.and_eq_true, validSym_iff, decide_eq_true_eq] at hp
      obtain ⟨⟨⟨⟨⟨⟨hv0, hv1⟩, hv2⟩, hv3⟩, he2⟩, he3⟩, hrest⟩ := hp
      obtain ⟨pb, hpb, happ⟩ := ih hrest
      refine ⟨(((BASE64_UNMAP.getD c0 255 <<< 2) % 256) ||| (BASE64_UNMAP.getD c1 255 >>> 4)) ::
        (((BASE64_UNMAP.getD c1 255 <<< 4) % 256) ||| (BASE64_UNMAP.getD c2 255 >>> 2)) ::
        (((BASE64_UNMAP.getD c2 255 <<< 6) % 256) ||| BASE64_UNMAP.getD c3 255) :: pb, ?_, ?_⟩
      · rw [decodeLoop_group_full _ _ _ _ _ hv0.1 hv1.1 hv2.1 hv3.1
          hv0.2 hv1.2 hv2.2 hv3.2 he2 he3, hpb]
        rfl
      · intro s
        have hcons : (c0 :: c1 :: c2 :: c3 :: rest) ++ s = c0 :: c1 :: c2 :: c3 :: (rest ++ s) :=
          rfl
        rw [hcons, decodeLoop_group_full _ _ _ _ _ hv0.1 hv1.1 hv2.1 hv3.1
          hv0.2 hv1.2 hv2.2 hv3.2 he2 he3, happ s]
        cases h : decodeLoop s <;> simp [Except.map]
  | case3 t h1 h4 =>
      intro hp
      rcases t with _ | ⟨a, _ | ⟨b, _ | ⟨c, _ | ⟨d, r⟩⟩⟩⟩
      · exact absurd rfl h1
      · simp [fullGroups] at hp
      · simp [fullGroups] at hp
      · simp [fullGroups] at hp
      · exact absurd rfl (h4 a b c d r)

/-! ## Index safety of the decode loop -/

/-- After the two upfront checks, the loop can never reach an out-of-bounds
access: neither on the input (groups of four always complete) nor on the
inverse table (all bytes are below 128). -/
lemma decodeLoop_no_oob : ∀ s : List Nat, s.length % 4 = 0 → (∀ b ∈ s, b < 128) →
    decodeLoop s ≠ .error .outOfBounds := by
  intro s
  induction s using fullGroups.induct with
  | case1 => intro _ _; simp [decodeLoop]
  | case2 c0 c1 c2 c3 rest ih =>
      intro hlen hascii
      have hrestlen : rest.length % 4 = 0 := by
        simp only [List.length_cons] at hlen; omega
      have hrestascii : ∀ b ∈ rest, b < 128 := fun b hb => hascii b (by simp [hb])
      simp only [decodeLoop]
      rw [if_pos ⟨hascii c0 (by simp), hascii c1 (by simp), hascii c2 (by simp),
        hascii c3 (by simp)⟩]
      split
      · simp
      · split
        · simp
        · split
          · simp
          · cases h : decodeLoop rest with
            | ok tail => simp [h]
            | error e =>
                simp only [h]
                intro hcontra
                apply ih hrestlen hrestascii
                rw [h]
                injection hcontra with he
                rw [he]
  | case3 t h1 h4 =>
      intro hlen _
      rcases t with _ | ⟨a, _ | ⟨b, _ | ⟨c, _ | ⟨d, r⟩⟩⟩⟩
      · exact absurd rfl h1
      · simp at hlen
      · simp at hlen
      · simp at hlen
      · exact absurd rfl (h4 a b c d r)

/-! ## Claims -/

/-- C1. Round-trip: for every byte sequence `b`, `decode (encode b)` succeeds and
returns exactly `b` (`encode` output fed to `decode` as its byte sequence). -/
theorem c1_round_trip (bs : List Nat) (hb : ∀ b ∈ bs, b < 256) :
    decode ((encode bs).map Char.toNat) = .ok bs := by
  have hlen : ((encode bs).map Char.toNat).length % 4 = 0 := by
    rw [List.length_map, encode_length]
    omega
  have hascii : ∀ b ∈ (encode bs).map Char.toNat, b < 128 := by
    intro b hbm
    rw [List.mem_map] at hbm
    obtain ⟨c, hc, rfl⟩ := hbm
    exact encode_mem_toNat_lt bs c hc
  rw [decode_eq_decodeLoop _ hlen hascii, decodeLoop_map_encode bs hb]

/-- Witness for C1 at the concrete input `[1, 2, 3, 255]`. -/
theorem c1_round_trip_witness :
    (∀ b ∈ [1, 2, 3, 255], b < 256) ∧
      decode ((encode [1, 2, 3, 255]).map Char.toNat) = .ok [1, 2, 3, 255] :=
  ⟨by decide, c1_round_trip [1, 2, 3, 255] (by decide)⟩

/-- C2. Length law: `(encode b).length = 4 * ⌈b.length / 3⌉` (the ceiling written
as `(b.length + 2) / 3`), hence always a multiple of 4; and the empty input
encodes to the empty string. -/
theorem c2_length_law :
    (∀ bs : List Nat, (encode bs).length = 4 * ((bs.length + 2) / 3) ∧
      (encode bs).length % 4 = 0) ∧ encode [] = [] :=
  ⟨fun bs => ⟨encode_length bs, by rw [encode_length]; omega⟩, rfl⟩

/-- C3. Truncate-on-padding: with any run of full valid groups `p` before it, a
well-formed group with `'='` (byte 61) at position 2 — or, after byte1 is
emitted, at position 3 — stops decoding entirely: whatever 4-aligned ASCII
suffix `t` follows is never decoded, and the bytes emitted so far are returned
as success. -/
theorem c3_truncate_on_padding :
    (∀ (p : List Nat) (c0 c1 c3 : Nat) (t : List Nat),
      fullGroups p = true → validSym c0 = true → validSym c1 = true → validSym c3 = true →
      t.length % 4 = 0 → (∀ b ∈ t, b < 128) →
      ∃ pb, decodeLoop p = .ok pb ∧
        decode (p ++ c0 :: c1 :: 61 :: c3 :: t) =
          .ok (pb ++ [((BASE64_UNMAP.getD c0 255 <<< 2) % 256) |||
            (BASE64_UNMAP.getD c1 255 >>> 4)])) ∧
    (∀ (p : List Nat) (c0 c1 c2 : Nat) (t : List Nat),
      fullGroups p = true → validSym c0 = true → validSym c1 = true → validSym c2 = true →
      c2 ≠ 61 → t.length % 4 = 0 → (∀ b ∈ t, b < 128) →
      ∃ pb, decodeLoop p = .ok pb ∧
        decode (p ++ c0 :: c1 :: c2 :: 61 :: t) =
          .ok (pb ++ [((BASE64_UNMAP.getD c0 255 <<< 2) % 256) |||
              (BASE64_UNMAP.getD c1 255 >>> 4),
            ((BASE64_UNMAP.getD c1 255 <<< 4) % 256) |||
              (BASE64_UNMAP.getD c2 255 >>> 2)])) := by
  constructor
  · intro p c0 c1 c3 t hp hv0 hv1 hv3 htlen htascii
    rw [validSym_iff] at hv0 hv1 hv3
    obtain ⟨pb, hpb, happ⟩ := decodeLoop_append_of_fullGroups p hp
    refine ⟨pb, hpb, ?_⟩
    have hlen : (p ++ c0 :: c1 :: 61 :: c3 :: t).length % 4 = 0 := by
      have := fullGroups_length p hp
      simp only [List.length_append, List.length_cons]
      omega
    have hascii : ∀ b ∈ p ++ c0 :: c1 :: 61 :: c3 :: t, b < 128 := by
      intro b hbm
      rcases List.mem_append.1 hbm with hbp | hbg
      · exact fullGroups_ascii p hp b hbp
      · simp only [List.mem_cons] at hbg
        rcases hbg with rfl | rfl | rfl | rfl | hmem
        · exact hv0.1
        · exact hv1.1
        · omega
        · exact hv3.1
        · exact htascii b hmem
    rw [decode_eq_decodeLoop _ hlen hascii, happ,
      decodeLoop_group_pad2 _ _ _ _ hv0.1 hv1.1 hv3.1 hv0.2 hv1.2 hv3.2]
    rfl
  · intro p c0 c1 c2 t hp hv0 hv1 hv2 he2 htlen htascii
    rw [validSym_iff] at hv0 hv1 hv2
    obtain ⟨pb, hpb, happ⟩ := decodeLoop_append_of_fullGroups p hp
    refine ⟨pb, hpb, ?_⟩
    have hlen : (p ++ c0 :: c1 :: c2 :: 61 :: t).length % 4 = 0 := by
      have := fullGroups_length p hp
      simp only [List.length_append, List.length_cons]
      omega
    have hascii : ∀ b ∈ p ++ c0 :: c1 :: c2 :: 61 :: t, b < 128 := by
      intro b hbm
      rcases List.mem_append.1 hbm with hbp | hbg
      · exact fullGroups_ascii p hp b hbp
      · simp only [List.mem_cons] at hbg
        rcases hbg with rfl | rfl | rfl | rfl | hmem
        · exact hv0.1
        · exact hv1.1
        · exact hv2.1
        · omega
        · exact htascii b hmem
    rw [decode_eq_decodeLoop _ hlen hascii, happ,
      decodeLoop_group_pad3 _ _ _ _ hv0.1 hv1.1 hv2.1 hv0.2 hv1.2 hv2.2 he2]
    rfl

/-- Witness for C3: prefix `"AQID"`, then `"AQ=="`, then the ignored suffix
`"AQID"`; decoding returns the prefix bytes plus one byte of the padded group. -/
theorem c3_truncate_on_padding_witness :
    ∃ pb, decodeLoop [65, 81, 73, 68] = .ok pb ∧
      decode ([65, 81, 73, 68] ++ 65 :: 81 :: 61 :: 61 :: [65, 81, 73, 68]) =
        .ok (pb ++ [((BASE64_UNMAP.getD 65 255 <<< 2) % 256) |||
          (BASE64_UNMAP.getD 81 255 >>> 4)]) :=
  c3_truncate_on_padding.1 [65, 81, 73, 68] 65 81 61 [65, 81, 73, 68]
    (by decide) (by decide) (by decide) (by decide) (by decide) (by decide)

/-- C4 fails as stated: the inverse-table entry for `'='` (byte 61) is `0`,
a legitimate 6-bit value, not the out-of-range sentinel the claim requires. -/
theorem c4_inverse_table_counterexample :
    Char.toNat '=' = 61 ∧ BASE64_UNMAP.getD 61 255 = 0 ∧
      ¬ 64 ≤ BASE64_UNMAP.getD 61 255 := by decide

/-- C4 amended: the inverse table maps every alphabet character to its 6-bit
value and every non-alphabet ASCII byte other than `'='` to the sentinel 255;
the entry for `'='` however is 0, not the sentinel (decode distinguishes `'='`
by position checks, not by lookup failure). -/
theorem c4_inverse_table_amended :
    (∀ k, k < 64 → BASE64_UNMAP.getD (mapChar k).toNat 255 = k) ∧
    BASE64_UNMAP.getD (Char.toNat '=') 255 = 0 ∧
    (∀ b, b < 128 → (∀ k, k < 64 → b ≠ (mapChar k).toNat) → b ≠ 61 →
      BASE64_UNMAP.getD b 255 = 255) := by decide

/-- Witness for C4 (amended) at the alphabet character `'F'` (`mapChar 5`) and
the non-alphabet byte 35 (`'#'`). -/
theorem c4_inverse_table_witness :
    BASE64_UNMAP.getD (mapChar 5).toNat 255 = 5 ∧ BASE64_UNMAP.getD 35 255 = 255 :=
  ⟨c4_inverse_table_amended.1 5 (by decide),
   c4_inverse_table_amended.2.2 35 (by decide) (by decide) (by decide)⟩

/-- C5 fails as stated: `"AQ==AB#A"` has valid length, is all-ASCII, and its
second group contains `'#'` (byte 35), a non-`'='` character mapped to the
sentinel — yet decode succeeds with `[1]`, because the `'='` in the first group
stops the loop before the invalid group is ever examined. -/
theorem c5_invalid_alphabet_counterexample :
    [65, 81, 61, 61, 65, 66, 35, 65].length % 4 = 0 ∧
    (∀ b ∈ [65, 81, 61, 61, 65, 66, 35, 65], b < 128) ∧
    BASE64_UNMAP.getD 35 255 = 255 ∧ (35 : Nat) ≠ 61 ∧
    decode [65, 81, 61, 61, 65, 66, 35, 65] = .ok [1] := by decide

/-- C5 amended: decode fails with `InvalidAlphabet` when a group containing a
sentinel-mapped byte is the first group *reached* — i.e. all groups before it
are full valid groups without padding. The abort is all-or-nothing. -/
theorem c5_invalid_alphabet_amended
    (p : List Nat) (c0 c1 c2 c3 : Nat) (t : List Nat)
    (hp : fullGroups p = true)
    (h0 : c0 < 128) (h1 : c1 < 128) (h2 : c2 < 128) (h3 : c3 < 128)
    (htascii : ∀ b ∈ t, b < 128) (htlen : t.length % 4 = 0)
    (hor : BASE64_UNMAP.getD c0 255 = 255 ∨ BASE64_UNMAP.getD c1 255 = 255 ∨
      BASE64_UNMAP.getD c2 255 = 255 ∨ BASE64_UNMAP.getD c3 255 = 255) :
    decode (p ++ c0 :: c1 :: c2 :: c3 :: t) = .error .invalidAlphabet := by
  obtain ⟨pb, hpb, happ⟩ := decodeLoop_append_of_fullGroups p hp
  have hlen : (p ++ c0 :: c1 :: c2 :: c3 :: t).length % 4 = 0 := by
    have := fullGroups_length p hp
    simp only [List.length_append, List.length_cons]
    omega
  have hascii : ∀ b ∈ p ++ c0 :: c1 :: c2 :: c3 :: t, b < 128 := by
    intro b hbm
    rcases List.mem_append.1 hbm with hbp | hbg
    · exact fullGroups_ascii p hp b hbp
    · simp only [List.mem_cons] at hbg
      rcases hbg with rfl | rfl | rfl | rfl | hmem
      · exact h0
      · exact h1
      · exact h2
      · exact h3
      · exact htascii b hmem
  rw [decode_eq_decodeLoop _ hlen hascii, happ,
    decodeLoop_group_invalid _ _ _ _ _ h0 h1 h2 h3 hor]
  rfl

/-- Witness for C5 (amended): `"AB#A"` (no preceding groups) is rejected. -/
theorem c5_invalid_alphabet_witness :
    decode ([] ++ 65 :: 66 :: 35 :: 65 :: []) = .error .invalidAlphabet :=
  c5_invalid_alphabet_amended [] 65 66 35 65 [] (by decide) (by decide) (by decide)
    (by decide) (by decide) (by decide) (by decide) (by decide)

/-- C6. Any input whose byte length is not a multiple of 4 is rejected with
`InvalidLength`; the check comes first, so no other property of the input
(ASCII-ness, alphabet membership) is consulted. -/
theorem c6_invalid_length (s : List Nat) (h : s.length % 4 ≠ 0) :
    decode s = .error .invalidLength :=
  decode_invalidLength s h

/-- Witness for C6 at `"A"`. -/
theorem c6_invalid_length_witness :
    ([65] : List Nat).length % 4 ≠ 0 ∧ decode [65] = .error .invalidLength :=
  ⟨by decide, c6_invalid_length [65] (by decide)⟩

/-- C7 fails as stated: the two-byte UTF-8 string `"é"` (`[195, 169]`) contains
bytes ≥ 128, yet decode rejects it with `InvalidLength`, not `NotAscii`,
because the length check runs first. -/
theorem c7_not_ascii_counterexample :
    (∃ b ∈ [195, 169], 128 ≤ b) ∧
    decode [195, 169] = .error .invalidLength ∧
    decode [195, 169] ≠ .error .notAscii := by decide

/-- C7 amended: any input of valid length (a multiple of 4) containing a byte
≥ 128 fails with `NotAscii`. -/
theorem c7_not_ascii_amended (s : List Nat) (hlen : s.length % 4 = 0)
    (h : ∃ b ∈ s, 128 ≤ b) : decode s = .error .notAscii :=
  decode_notAscii s hlen h

/-- Witness for C7 (amended) at `"éAA"` (`[195, 169, 65, 65]`). -/
theorem c7_not_ascii_witness :
    ([195, 169, 65, 65] : List Nat).length % 4 = 0 ∧
      decode [195, 169, 65, 65] = .error .notAscii :=
  ⟨by decide, c7_not_ascii_amended [195, 169, 65, 65] (by decide) (by decide)⟩

/-- C8. Padding law: input length ≡ 1 (mod 3) gives a `"=="` suffix, ≡ 2 gives
exactly one `"="`, ≡ 0 gives no padding character at all. -/
theorem c8_padding_law (bs : List Nat) :
    (bs.length % 3 = 1 → ∃ u, encode bs = u ++ ['=', '='] ∧ '=' ∉ u) ∧
    (bs.length % 3 = 2 → ∃ u, encode bs = u ++ ['='] ∧ '=' ∉ u) ∧
    (bs.length % 3 = 0 → '=' ∉ encode bs) :=
  ⟨(encode_shape bs).2.1, (encode_shape bs).2.2, (encode_shape bs).1⟩

/-- Witness for C8 at `[1]`, `[1, 2]` and `[1, 2, 3]`. -/
theorem c8_padding_law_witness :
    (∃ u, encode [1] = u ++ ['=', '='] ∧ '=' ∉ u) ∧
    (∃ u, encode [1, 2] = u ++ ['='] ∧ '=' ∉ u) ∧
    '=' ∉ encode [1, 2, 3] :=
  ⟨(c8_padding_law [1]).1 (by decide), (c8_padding_law [1, 2]).2.1 (by decide),
   (c8_padding_law [1, 2, 3]).2.2 (by decide)⟩

/-- C9. Index safety: once the multiple-of-4 and ASCII checks hold, the loop
never reaches an out-of-bounds access (`outOfBounds` marks every would-be
out-of-range read of the input or of the 128-entry inverse table); and `decode`
as a whole can never hit one on any input, since it performs those checks. -/
theorem c9_index_safety :
    (∀ s : List Nat, s.length % 4 = 0 → (∀ b ∈ s, b < 128) →
      decodeLoop s ≠ .error .outOfBounds) ∧
    (∀ s : List Nat, decode s ≠ .error .outOfBounds) := by
  refine ⟨decodeLoop_no_oob, fun s => ?_⟩
  by_cases hlen : s.length % 4 = 0
  · by_cases hascii : ∀ b ∈ s, b < 128
    · rw [decode_eq_decodeLoop s hlen hascii]
      exact decodeLoop_no_oob s hlen hascii
    · have hex : ∃ b ∈ s, 128 ≤ b := by
        push_neg at hascii
        obtain ⟨b, hbm, hge⟩ := hascii
        exact ⟨b, hbm, hge⟩
      rw [decode_notAscii s hlen hex]
      simp
  · rw [decode_invalidLength s hlen]
    simp

/-- Witness for C9 at `"AQID"`. -/
theorem c9_index_safety_witness :
    ([65, 81, 73, 68] : List Nat).length % 4 = 0 ∧
      decodeLoop [65, 81, 73, 68] ≠ .error .outOfBounds :=
  ⟨by decide, c9_index_safety.1 [65, 81, 73, 68] (by decide) (by decide)⟩

/-- C10. The decoder never validates the position of `'='`: since
`BASE64_UNMAP` maps `'='` (61) to 0 rather than the sentinel, an `'='` in group
position 0 or 1 decodes silently as the 6-bit value 0: `decode "=AAA"` succeeds
with `[0, 0, 0]` and `decode "===="` succeeds with `[0]`. -/
theorem c10_padding_position_not_validated :
    decode [61, 65, 65, 65] = .ok [0, 0, 0] ∧
    decode [61, 61, 61, 61] = .ok [0] ∧
    BASE64_UNMAP.getD (Char.toNat '=') 255 = 0 := by decide

end Base64
